import Mathlib

/-!
Verification of the 0/1 knapsack brute-force solver (`src/mp1/src/main.rs`).

The Rust program enumerates all non-empty subsets of the item set in
binary-reflected Gray-code order, maintaining the running subset weight and
value incrementally by toggling one item per step, and returns the best
feasible subset together with its value.  The definitions below are a shallow
embedding of that code: `u64`/`u16`/`usize` values are modelled as `Nat`
(on the program's realizable inputs — at most 50 items, each weight/value a
`u16` — no machine-integer overflow can occur, so `Nat` arithmetic coincides
with the machine arithmetic), `Vec` indexing is `List.getD` (all in-loop
indices are proved in bounds), and the one panicking path reachable from
`solve`'s interface (integer division by zero on `update_freq = 0`) is
modelled by an `Option` result.
-/

/-- Count of trailing zero bits of a positive number: the fuel-indexed worker.
The first argument is fuel (always called with fuel `≥` the argument, so the
fuel never runs out on a positive argument). -/
def ctzAux : Nat → Nat → Nat
  | 0, _ => 0
  | fuel + 1, x => if x % 2 = 1 then 0 else ctzAux fuel (x / 2) + 1

/-- Count of trailing zero bits (of a positive number). `ctz 0 = 0` by fuel
exhaustion, but the value at `0` is never used: the `u64` semantics of
`trailing_zeros` on `0` is handled in `BitString.least_significant_bit`. -/
def ctz (x : Nat) : Nat := ctzAux x x

/-- Embeds Rust `struct BitString { data: u64 }`; `data` is the `Nat` value of
the `u64` word. -/
structure BitString where
  data : Nat
deriving DecidableEq, Repr

/-- Embeds `BitString::new`. -/
def BitString.new (data : Nat) : BitString := ⟨data⟩

/-- Embeds `BitString::is_bit_set`: `(self.data & (1u64 << index)) != 0`. -/
def BitString.is_bit_set (b : BitString) (index : Nat) : Bool :=
  b.data &&& (1 <<< index) != 0

/-- Embeds `BitString::least_significant_bit`: `self.data.trailing_zeros()`.
Rust's `u64::trailing_zeros` is total and returns the bit width 64 on the
all-zero word (it does not panic). -/
def BitString.least_significant_bit (b : BitString) : Nat :=
  if b.data = 0 then 64 else ctz b.data

/-- Embeds `BitString::flip_bit`: `self.data ^= 1 << index`. -/
def BitString.flip_bit (b : BitString) (index : Nat) : BitString :=
  ⟨b.data ^^^ (1 <<< index)⟩

/-- Embeds Rust `struct Knapsack` (weights and values are `Vec<u16>`). -/
structure Knapsack where
  weights : List Nat
  values : List Nat
  total_items : Nat
deriving DecidableEq, Repr

/-- The mutable local state of one iteration of `Knapsack::solve`'s loop:
`bit_str`, `max_value`, `best_subset`, `current_weight`, `current_value` and
the progress-bar bookkeeping variable `next_update`. -/
structure SolveState where
  bit_str : BitString
  max_value : Nat
  best_subset : BitString
  current_weight : Nat
  current_value : Nat
  next_update : Nat
deriving DecidableEq, Repr

/-- The state of `Knapsack::solve` just before its loop starts;
`uf` is the already-divided update interval `n / update_freq`. -/
def initState (uf : Nat) : SolveState :=
  { bit_str := BitString.new 0
    max_value := 0
    best_subset := BitString.new 0
    current_weight := 0
    current_value := 0
    next_update := uf }

/-- One iteration of the `for i in 1..n` loop of `Knapsack::solve`:
toggle the least-significant set bit of `i` in `bit_str`, update the progress
counter, add or subtract item `lsb`'s weight and value, skip (`continue`) if
over capacity, otherwise record a strictly better subset. -/
def solveStep (k : Knapsack) (knapsack_capacity uf : Nat) (s : SolveState) (i : Nat) :
    SolveState :=
  let lsb := (BitString.new i).least_significant_bit
  let bit_str := s.bit_str.flip_bit lsb
  let next_update := if i = s.next_update then s.next_update + uf else s.next_update
  let current_weight :=
    if bit_str.is_bit_set lsb then s.current_weight + k.weights.getD lsb 0
    else s.current_weight - k.weights.getD lsb 0
  let current_value :=
    if bit_str.is_bit_set lsb then s.current_value + k.values.getD lsb 0
    else s.current_value - k.values.getD lsb 0
  if knapsack_capacity < current_weight then
    { bit_str := bit_str, max_value := s.max_value, best_subset := s.best_subset
      current_weight := current_weight, current_value := current_value
      next_update := next_update }
  else if s.max_value < current_value then
    { bit_str := bit_str, max_value := current_value, best_subset := bit_str
      current_weight := current_weight, current_value := current_value
      next_update := next_update }
  else
    { bit_str := bit_str, max_value := s.max_value, best_subset := s.best_subset
      current_weight := current_weight, current_value := current_value
      next_update := next_update }

/-- The solver state after loop iterations `1, 2, ..., i` of
`Knapsack::solve` (with `uf` the divided update interval). `stateAfter 0`
is the initial state. -/
def Knapsack.stateAfter (k : Knapsack) (knapsack_capacity uf i : Nat) : SolveState :=
  (List.range' 1 i).foldl (solveStep k knapsack_capacity uf) (initState uf)

/-- Embeds `Knapsack::solve`.  The progress bar itself is pure I/O and is
omitted; its bookkeeping variable `next_update` is kept in the state.  The
Rust expression `n / update_freq` panics when `update_freq = 0` (integer
division by zero), modelled by `none`. -/
def Knapsack.solve (k : Knapsack) (knapsack_capacity update_freq : Nat) :
    Option (BitString × Nat) :=
  if update_freq = 0 then none
  else
    let n := 2 ^ k.total_items
    let uf := n / update_freq
    let final := (List.range' 1 (n - 1)).foldl (solveStep k knapsack_capacity uf) (initState uf)
    some (final.best_subset, final.max_value)

/-- The sequence of subsets taken by `bit_str` after each toggle, over one
full run of the loop of `Knapsack::solve` (as raw `u64` subset encodings). -/
def Knapsack.visitedSubsets (k : Knapsack) (knapsack_capacity uf : Nat) : List Nat :=
  (List.range' 1 (2 ^ k.total_items - 1)).map
    fun i => ((k.stateAfter knapsack_capacity uf i).bit_str).data

/-- Reference (spec-side) total of list `l` over the items whose bit is set in
the subset encoding `s`, counting only the first `n` positions. -/
def subsetSum (l : List Nat) (n : Nat) (s : Nat) : Nat :=
  ∑ i ∈ Finset.range n, if s.testBit i then l.getD i 0 else 0

/-- Total weight of the items whose bit is set in subset `s`. -/
def Knapsack.subsetWeight (k : Knapsack) (s : Nat) : Nat :=
  subsetSum k.weights k.total_items s

/-- Total value of the items whose bit is set in subset `s`. -/
def Knapsack.subsetValue (k : Knapsack) (s : Nat) : Nat :=
  subsetSum k.values k.total_items s

/-- The binary-reflected Gray code of `i`.  The solver never computes this
number directly; it arises as the proved value of `bit_str` after `i` loop
iterations. -/
def gray (i : Nat) : Nat := i ^^^ (i >>> 1)

/-- Fuel-indexed inverse of `gray` (iterated shift-xor), used only to prove
that `gray` is injective below each power of two. -/
def grayInvAux : Nat → Nat → Nat
  | 0, _ => 0
  | fuel + 1, y => y ^^^ grayInvAux fuel (y >>> 1)

/-- Embeds line 239 of `main.rs`:
`trial_results.iter().sum::<f64>() / args.trials as f64`, with the `f64`
arithmetic idealized as exact rational arithmetic. -/
def reportedAverage (trial_results : List ℚ) (trials : Nat) : ℚ :=
  trial_results.sum / trials

/-! ### Trailing-zero count -/

theorem ctzAux_eq_of_le : ∀ x f g : Nat, x ≠ 0 → x ≤ f → x ≤ g →
    ctzAux f x = ctzAux g x := by
  intro x
  induction x using Nat.strong_induction_on with
  | _ x ih =>
    intro f g hx hf hg
    match f, g with
    | 0, _ => omega
    | _ + 1, 0 => omega
    | f + 1, g + 1 =>
      simp only [ctzAux]
      by_cases hodd : x % 2 = 1
      · simp [hodd]
      · have hx2 : x / 2 ≠ 0 := by omega
        have hlt : x / 2 < x := by omega
        have := ih (x / 2) hlt f g hx2 (by omega) (by omega)
        simp [hodd, this]

theorem ctz_odd {x : Nat} (h : x % 2 = 1) : ctz x = 0 := by
  have hx : x ≠ 0 := by omega
  obtain ⟨f, rfl⟩ : ∃ f, x = f + 1 := ⟨x - 1, by omega⟩
  simp [ctz, ctzAux, h]

theorem ctz_two_mul {j : Nat} (h : j ≠ 0) : ctz (2 * j) = ctz j + 1 := by
  obtain ⟨f, hf⟩ : ∃ f, 2 * j = f + 1 := ⟨2 * j - 1, by omega⟩
  have h2 : (f + 1) % 2 = 0 := by omega
  have h3 : (f + 1) / 2 = j := by omega
  have h4 : ctzAux f j = ctzAux j j := ctzAux_eq_of_le j f j h (by omega) le_rfl
  calc ctz (2 * j) = ctzAux (f + 1) (f + 1) := by rw [ctz, hf]
    _ = ctzAux f ((f + 1) / 2) + 1 := by
        simp only [ctzAux]
        rw [if_neg (by omega)]
    _ = ctzAux f j + 1 := by rw [h3]
    _ = ctz j + 1 := by rw [h4, ctz]

theorem ctz_decomp : ∀ x : Nat, x ≠ 0 → ∃ m, x = 2 ^ ctz x * (2 * m + 1) := by
  intro x
  induction x using Nat.strong_induction_on with
  | _ x ih =>
    intro hx
    by_cases hodd : x % 2 = 1
    · exact ⟨x / 2, by rw [ctz_odd hodd]; omega⟩
    · obtain ⟨j, rfl⟩ : ∃ j, x = 2 * j := ⟨x / 2, by omega⟩
      have hj : j ≠ 0 := by omega
      have hlt : j < 2 * j := by omega
      obtain ⟨m, hm⟩ := ih j hlt hj
      refine ⟨m, ?_⟩
      rw [ctz_two_mul hj, pow_succ]
      calc 2 * j = 2 * (2 ^ ctz j * (2 * m + 1)) := by rw [← hm]
        _ = 2 ^ ctz j * 2 * (2 * m + 1) := by ring

theorem two_pow_ctz_le {x : Nat} (hx : x ≠ 0) : 2 ^ ctz x ≤ x := by
  obtain ⟨m, hm⟩ := ctz_decomp x hx
  calc 2 ^ ctz x = 2 ^ ctz x * 1 := by ring
    _ ≤ 2 ^ ctz x * (2 * m + 1) := Nat.mul_le_mul_left _ (by omega)
    _ = x := hm.symm

theorem ctz_lt_of_lt_two_pow {x n : Nat} (hx : x ≠ 0) (h : x < 2 ^ n) : ctz x < n := by
  have h1 : 2 ^ ctz x < 2 ^ n := Nat.lt_of_le_of_lt (two_pow_ctz_le hx) h
  exact (Nat.pow_lt_pow_iff_right (by omega)).mp h1

/-! ### XOR facts -/

theorem two_mul_xor_two_mul (a b : Nat) : (2 * a) ^^^ (2 * b) = 2 * (a ^^^ b) := by
  apply Nat.eq_of_testBit_eq
  intro j
  cases j with
  | zero =>
    have ha : 2 * a % 2 = 0 := by omega
    have hb : 2 * b % 2 = 0 := by omega
    have hab : 2 * (a ^^^ b) % 2 = 0 := by omega
    rw [Nat.testBit_xor]
    simp only [Nat.testBit_zero, ha, hb, hab]
    rfl
  | succ j =>
    have ha : 2 * a / 2 = a := by omega
    have hb : 2 * b / 2 = b := by omega
    have hab : 2 * (a ^^^ b) / 2 = a ^^^ b := by omega
    rw [Nat.testBit_xor, Nat.testBit_add_one, Nat.testBit_add_one,
      Nat.testBit_add_one, ha, hb, hab, Nat.testBit_xor]

theorem two_mul_xor_two_mul_add_one (a b : Nat) :
    (2 * a) ^^^ (2 * b + 1) = 2 * (a ^^^ b) + 1 := by
  apply Nat.eq_of_testBit_eq
  intro j
  cases j with
  | zero =>
    have ha : 2 * a % 2 = 0 := by omega
    have hb : (2 * b + 1) % 2 = 1 := by omega
    have hab : (2 * (a ^^^ b) + 1) % 2 = 1 := by omega
    rw [Nat.testBit_xor]
    simp only [Nat.testBit_zero, ha, hb, hab]
    rfl
  | succ j =>
    have ha : 2 * a / 2 = a := by omega
    have hb : (2 * b + 1) / 2 = b := by omega
    have hab : (2 * (a ^^^ b) + 1) / 2 = a ^^^ b := by omega
    rw [Nat.testBit_xor, Nat.testBit_add_one, Nat.testBit_add_one,
      Nat.testBit_add_one, ha, hb, hab, Nat.testBit_xor]

/-- XOR of a positive number with its predecessor is the all-ones mask up to
and including the lowest set bit. -/
theorem xor_pred {i : Nat} (hi : 1 ≤ i) : i ^^^ (i - 1) = 2 ^ (ctz i + 1) - 1 := by
  induction i using Nat.strong_induction_on with
  | _ i ih =>
    by_cases hodd : i % 2 = 1
    · obtain ⟨j, rfl⟩ : ∃ j, i = 2 * j + 1 := ⟨i / 2, by omega⟩
      have h1 : 2 * j + 1 - 1 = 2 * j := by omega
      rw [h1, Nat.xor_comm, two_mul_xor_two_mul_add_one, ctz_odd hodd]
      simp
    · obtain ⟨j, rfl⟩ : ∃ j, i = 2 * j := ⟨i / 2, by omega⟩
      have hj1 : 1 ≤ j := by omega
      have hj0 : j ≠ 0 := by omega
      have h1 : 2 * j - 1 = 2 * (j - 1) + 1 := by omega
      have h2 := ih j (by omega) hj1
      have h3 : 1 ≤ 2 ^ (ctz j + 1) := Nat.one_le_two_pow
      rw [h1, two_mul_xor_two_mul_add_one, h2, ctz_two_mul hj0]
      have h4 : 2 ^ (ctz j + 1 + 1) = 2 * 2 ^ (ctz j + 1) := by
        rw [pow_succ]; ring
      omega

theorem xor_shiftRight_distrib (a b k : Nat) :
    (a ^^^ b) >>> k = (a >>> k) ^^^ (b >>> k) := by
  apply Nat.eq_of_testBit_eq
  intro j
  simp [Nat.testBit_xor, Nat.testBit_shiftRight]

theorem xor_xor_xor_comm (a b c d : Nat) :
    (a ^^^ b) ^^^ (c ^^^ d) = (a ^^^ c) ^^^ (b ^^^ d) := by
  apply Nat.eq_of_testBit_eq
  intro j
  simp only [Nat.testBit_xor]
  cases a.testBit j <;> cases b.testBit j <;> cases c.testBit j <;> cases d.testBit j <;> rfl

theorem two_pow_succ_sub_one_xor (t : Nat) :
    (2 ^ (t + 1) - 1) ^^^ (2 ^ t - 1) = 2 ^ t := by
  apply Nat.eq_of_testBit_eq
  intro j
  simp only [Nat.testBit_xor, Nat.testBit_two_pow_sub_one, Nat.testBit_two_pow]
  by_cases h1 : j < t
  · have h2 : j < t + 1 := by omega
    have h3 : ¬ t = j := by omega
    simp [h1, h2, h3]
  · by_cases h2 : j = t
    · simp [h2]
    · have h3 : ¬ j < t + 1 := by omega
      have h4 : ¬ t = j := by omega
      simp [h1, h3, h4]

/-! ### Gray-code facts -/

theorem gray_zero : gray 0 = 0 := rfl

theorem gray_shiftRight (i : Nat) : gray i >>> 1 = gray (i >>> 1) := by
  unfold gray
  rw [xor_shiftRight_distrib]

/-- The defining single-toggle property: the Gray code of `i + 1` differs from
the Gray code of `i` exactly in the bit at the trailing-zero count of `i + 1`. -/
theorem gray_succ (i : Nat) : gray (i + 1) = gray i ^^^ (1 <<< ctz (i + 1)) := by
  have hd : (i + 1) ^^^ i = 2 ^ (ctz (i + 1) + 1) - 1 := by
    have := xor_pred (i := i + 1) (by omega)
    simpa using this
  have hkey : gray (i + 1) ^^^ gray i = 1 <<< ctz (i + 1) := by
    unfold gray
    rw [xor_xor_xor_comm, ← xor_shiftRight_distrib, hd]
    have hhalf : (2 ^ (ctz (i + 1) + 1) - 1) >>> 1 = 2 ^ ctz (i + 1) - 1 := by
      rw [Nat.shiftRight_eq_div_pow, pow_one]
      have : 2 ^ (ctz (i + 1) + 1) = 2 * 2 ^ ctz (i + 1) := by rw [pow_succ]; ring
      omega
    rw [hhalf, two_pow_succ_sub_one_xor, Nat.one_shiftLeft]
  calc gray (i + 1) = (gray (i + 1) ^^^ gray i) ^^^ gray i := by
        rw [Nat.xor_cancel_right]
    _ = gray i ^^^ (1 <<< ctz (i + 1)) := by rw [hkey, Nat.xor_comm]

theorem gray_lt {i n : Nat} (hi : i < 2 ^ n) : gray i < 2 ^ n := by
  apply Nat.xor_lt_two_pow hi
  calc i >>> 1 ≤ i := by rw [Nat.shiftRight_eq_div_pow, pow_one]; omega
    _ < 2 ^ n := hi

theorem grayInvAux_gray : ∀ fuel i : Nat, i < 2 ^ fuel → grayInvAux fuel (gray i) = i := by
  intro fuel
  induction fuel with
  | zero =>
    intro i hi
    have : i = 0 := by simpa using hi
    subst this
    rfl
  | succ fuel ih =>
    intro i hi
    have hhalf : i >>> 1 < 2 ^ fuel := by
      rw [Nat.shiftRight_eq_div_pow, pow_one]
      have : 2 ^ (fuel + 1) = 2 * 2 ^ fuel := by rw [pow_succ]; ring
      omega
    simp only [grayInvAux, gray_shiftRight, ih _ hhalf]
    unfold gray
    rw [Nat.xor_assoc, Nat.xor_self, Nat.xor_zero]

theorem gray_inj {a b n : Nat} (ha : a < 2 ^ n) (hb : b < 2 ^ n)
    (h : gray a = gray b) : a = b := by
  have h1 := grayInvAux_gray n a ha
  have h2 := grayInvAux_gray n b hb
  rw [h] at h1
  omega

theorem gray_surj {n s : Nat} (hs : s < 2 ^ n) : ∃ i, i < 2 ^ n ∧ gray i = s := by
  have himg : (Finset.range (2 ^ n)).image gray = Finset.range (2 ^ n) := by
    apply Finset.eq_of_subset_of_card_le
    · intro x hx
      simp only [Finset.mem_image, Finset.mem_range] at hx ⊢
      obtain ⟨i, hi, rfl⟩ := hx
      exact gray_lt hi
    · rw [Finset.card_image_of_injOn]
      intro a ha b hb hab
      exact gray_inj (Finset.mem_range.mp ha) (Finset.mem_range.mp hb) hab
  have hmem : s ∈ (Finset.range (2 ^ n)).image gray := by
    rw [himg]; exact Finset.mem_range.mpr hs
  obtain ⟨i, hi, hgi⟩ := Finset.mem_image.mp hmem
  exact ⟨i, Finset.mem_range.mp hi, hgi⟩

theorem gray_eq_zero_iff {i : Nat} : gray i = 0 ↔ i = 0 := by
  unfold gray
  rw [Nat.xor_eq_zero, Nat.shiftRight_eq_div_pow, pow_one]
  omega

/-! ### Subset-sum facts -/

theorem subsetSum_zero (l : List Nat) (n : Nat) : subsetSum l n 0 = 0 := by
  simp [subsetSum]

theorem subsetSum_flip_of_not_testBit (l : List Nat) {n s t : Nat}
    (ht : t < n) (hb : s.testBit t = false) :
    subsetSum l n (s ^^^ (1 <<< t)) = subsetSum l n s + l.getD t 0 := by
  unfold subsetSum
  have hmem : t ∈ Finset.range n := Finset.mem_range.mpr ht
  rw [← Finset.add_sum_erase _ _ hmem, ← Finset.add_sum_erase _ _ hmem]
  have hnew : (s ^^^ (1 <<< t)).testBit t = true := by
    rw [Nat.one_shiftLeft, Nat.testBit_xor, Nat.testBit_two_pow_self, hb]
    rfl
  have hsame : ∀ i ∈ (Finset.range n).erase t,
      (if (s ^^^ (1 <<< t)).testBit i then l.getD i 0 else 0) =
      (if s.testBit i then l.getD i 0 else 0) := by
    intro i hi
    have hne : t ≠ i := fun h => (Finset.ne_of_mem_erase hi) h.symm
    rw [Nat.one_shiftLeft, Nat.testBit_xor, Nat.testBit_two_pow_of_ne hne]
    simp
  rw [Finset.sum_congr rfl hsame, hnew, hb]
  simp [Nat.add_comm, Nat.add_assoc, Nat.add_left_comm]

theorem subsetSum_flip_of_testBit (l : List Nat) {n s t : Nat}
    (ht : t < n) (hb : s.testBit t = true) :
    subsetSum l n s = subsetSum l n (s ^^^ (1 <<< t)) + l.getD t 0 := by
  have hnew : (s ^^^ (1 <<< t)).testBit t = false := by
    rw [Nat.one_shiftLeft, Nat.testBit_xor, Nat.testBit_two_pow_self, hb]
    rfl
  have hcancel : (s ^^^ (1 <<< t)) ^^^ (1 <<< t) = s := Nat.xor_cancel_right _ _
  have := subsetSum_flip_of_not_testBit l ht hnew
  rw [hcancel] at this
  exact this

/-! ### Bridges between the Rust bit operations and `Nat.testBit` -/

theorem is_bit_set_eq_testBit (b : BitString) (i : Nat) :
    b.is_bit_set i = b.data.testBit i := by
  unfold BitString.is_bit_set
  rw [Nat.one_shiftLeft, Nat.and_two_pow]
  cases h : b.data.testBit i
  · simp [h]
  · simp [h, bne_iff_ne, (Nat.two_pow_pos i).ne']

theorem least_significant_bit_new {i : Nat} (hi : i ≠ 0) :
    (BitString.new i).least_significant_bit = ctz i := by
  simp [BitString.new, BitString.least_significant_bit, hi]

theorem flip_bit_data (b : BitString) (t : Nat) :
    (b.flip_bit t).data = b.data ^^^ (1 <<< t) := rfl

/-! ### Unfolding the solver loop -/

theorem stateAfter_zero (k : Knapsack) (cap uf : Nat) :
    k.stateAfter cap uf 0 = initState uf := rfl

theorem stateAfter_succ (k : Knapsack) (cap uf i : Nat) :
    k.stateAfter cap uf (i + 1) = solveStep k cap uf (k.stateAfter cap uf i) (i + 1) := by
  unfold Knapsack.stateAfter
  rw [List.range'_concat, List.foldl_append]
  simp [Nat.add_comm]

theorem solve_eq_stateAfter (k : Knapsack) (cap u : Nat) (hu : u ≠ 0) :
    k.solve cap u =
      some ((k.stateAfter cap (2 ^ k.total_items / u) (2 ^ k.total_items - 1)).best_subset,
            (k.stateAfter cap (2 ^ k.total_items / u) (2 ^ k.total_items - 1)).max_value) := by
  simp [Knapsack.solve, Knapsack.stateAfter, hu]

/-! ### The master loop invariant of the solver -/

/-- Invariant of `Knapsack::solve`'s loop after `i` iterations: `bit_str`
carries the Gray code of `i`; the running totals are the exact subset sums of
`bit_str`; `max_value` bounds the value of every feasible subset visited so
far; and `best_subset` is either the untouched initial zero subset (with
`max_value = 0`) or the earliest visited feasible subset attaining
`max_value`. -/
structure SolveInv (k : Knapsack) (cap i : Nat) (s : SolveState) : Prop where
  hbit : s.bit_str.data = gray i
  hcw : s.current_weight = k.subsetWeight (gray i)
  hcv : s.current_value = k.subsetValue (gray i)
  hub : ∀ j, 1 ≤ j → j ≤ i → k.subsetWeight (gray j) ≤ cap →
    k.subsetValue (gray j) ≤ s.max_value
  hbest : (s.max_value = 0 ∧ s.best_subset.data = 0) ∨
    (0 < s.max_value ∧ ∃ j, 1 ≤ j ∧ j ≤ i ∧ s.best_subset.data = gray j ∧
      k.subsetWeight (gray j) ≤ cap ∧ k.subsetValue (gray j) = s.max_value ∧
      ∀ j', 1 ≤ j' → j' < j → k.subsetWeight (gray j') ≤ cap →
        k.subsetValue (gray j') < s.max_value)

theorem SolveInv.step {k : Knapsack} {cap i : Nat} {s : SolveState} (uf : Nat)
    (hI : SolveInv k cap i s) (hi : i + 1 < 2 ^ k.total_items) :
    SolveInv k cap (i + 1) (solveStep k cap uf s (i + 1)) := by
  have hne : i + 1 ≠ 0 := by omega
  have hlsb : (BitString.new (i + 1)).least_significant_bit = ctz (i + 1) :=
    least_significant_bit_new hne
  have ht : ctz (i + 1) < k.total_items := ctz_lt_of_lt_two_pow hne hi
  set t := ctz (i + 1) with htdef
  have hflip : gray (i + 1) = gray i ^^^ (1 <<< t) := by
    rw [gray_succ, htdef]
  have hbit' : (s.bit_str.flip_bit t).data = gray (i + 1) := by
    rw [flip_bit_data, hI.hbit, hflip]
  have hset : (s.bit_str.flip_bit t).is_bit_set t = !((gray i).testBit t) := by
    rw [is_bit_set_eq_testBit, flip_bit_data, hI.hbit, Nat.one_shiftLeft,
      Nat.testBit_xor, Nat.testBit_two_pow_self, Bool.xor_true]
  have hcwval : (if (s.bit_str.flip_bit t).is_bit_set t
      then s.current_weight + k.weights.getD t 0
      else s.current_weight - k.weights.getD t 0) = k.subsetWeight (gray (i + 1)) := by
    cases hb : (gray i).testBit t
    · rw [hset, hb]
      simp only [Bool.not_false, if_true]
      rw [hI.hcw, hflip, Knapsack.subsetWeight, Knapsack.subsetWeight,
        subsetSum_flip_of_not_testBit k.weights ht hb]
    · rw [hset, hb]
      simp only [Bool.not_true, Bool.false_eq_true, if_false]
      rw [hI.hcw, hflip, Knapsack.subsetWeight, Knapsack.subsetWeight]
      have h := subsetSum_flip_of_testBit k.weights ht hb
      omega
  have hcvval : (if (s.bit_str.flip_bit t).is_bit_set t
      then s.current_value + k.values.getD t 0
      else s.current_value - k.values.getD t 0) = k.subsetValue (gray (i + 1)) := by
    cases hb : (gray i).testBit t
    · rw [hset, hb]
      simp only [Bool.not_false, if_true]
      rw [hI.hcv, hflip, Knapsack.subsetValue, Knapsack.subsetValue,
        subsetSum_flip_of_not_testBit k.values ht hb]
    · rw [hset, hb]
      simp only [Bool.not_true, Bool.false_eq_true, if_false]
      rw [hI.hcv, hflip, Knapsack.subsetValue, Knapsack.subsetValue]
      have h := subsetSum_flip_of_testBit k.values ht hb
      omega
  have hstep : solveStep k cap uf s (i + 1) =
      (if cap < k.subsetWeight (gray (i + 1)) then
        { bit_str := s.bit_str.flip_bit t, max_value := s.max_value,
          best_subset := s.best_subset,
          current_weight := k.subsetWeight (gray (i + 1)),
          current_value := k.subsetValue (gray (i + 1)),
          next_update := if i + 1 = s.next_update then s.next_update + uf
            else s.next_update }
      else if s.max_value < k.subsetValue (gray (i + 1)) then
        { bit_str := s.bit_str.flip_bit t, max_value := k.subsetValue (gray (i + 1)),
          best_subset := s.bit_str.flip_bit t,
          current_weight := k.subsetWeight (gray (i + 1)),
          current_value := k.subsetValue (gray (i + 1)),
          next_update := if i + 1 = s.next_update then s.next_update + uf
            else s.next_update }
      else
        { bit_str := s.bit_str.flip_bit t, max_value := s.max_value,
          best_subset := s.best_subset,
          current_weight := k.subsetWeight (gray (i + 1)),
          current_value := k.subsetValue (gray (i + 1)),
          next_update := if i + 1 = s.next_update then s.next_update + uf
            else s.next_update }) := by
    simp only [solveStep, hlsb]
    rw [hcwval, hcvval]
  rw [hstep]
  by_cases h1 : cap < k.subsetWeight (gray (i + 1))
  · rw [if_pos h1]
    refine ⟨hbit', rfl, rfl, ?_, ?_⟩
    · intro j hj1 hj2 hfeas
      rcases Nat.lt_or_ge j (i + 1) with hj | hj
      · exact hI.hub j hj1 (by omega) hfeas
      · have hje : j = i + 1 := by omega
        subst hje
        omega
    · rcases hI.hbest with ⟨h0, hb0⟩ | ⟨hpos, j, hj1, hj2, hbs, hf, hv, hfirst⟩
      · exact Or.inl ⟨h0, hb0⟩
      · exact Or.inr ⟨hpos, j, hj1, by omega, hbs, hf, hv, hfirst⟩
  · rw [if_neg h1]
    by_cases h2 : s.max_value < k.subsetValue (gray (i + 1))
    · rw [if_pos h2]
      refine ⟨hbit', rfl, rfl, ?_, ?_⟩
      · intro j hj1 hj2 hfeas
        show k.subsetValue (gray j) ≤ k.subsetValue (gray (i + 1))
        rcases Nat.lt_or_ge j (i + 1) with hj | hj
        · have := hI.hub j hj1 (by omega) hfeas
          omega
        · have hje : j = i + 1 := by omega
          subst hje
          exact le_refl _
      · refine Or.inr ⟨?_, i + 1, by omega, le_refl _, hbit',
          by omega, rfl, ?_⟩
        · show 0 < k.subsetValue (gray (i + 1))
          omega
        · intro j' hj1' hj2' hf'
          show k.subsetValue (gray j') < k.subsetValue (gray (i + 1))
          have := hI.hub j' hj1' (by omega) hf'
          omega
    · rw [if_neg h2]
      refine ⟨hbit', rfl, rfl, ?_, ?_⟩
      · intro j hj1 hj2 hfeas
        show k.subsetValue (gray j) ≤ s.max_value
        rcases Nat.lt_or_ge j (i + 1) with hj | hj
        · exact hI.hub j hj1 (by omega) hfeas
        · have hje : j = i + 1 := by omega
          subst hje
          omega
      · rcases hI.hbest with ⟨h0, hb0⟩ | ⟨hpos, j, hj1, hj2, hbs, hf, hv, hfirst⟩
        · exact Or.inl ⟨h0, hb0⟩
        · exact Or.inr ⟨hpos, j, hj1, by omega, hbs, hf, hv, hfirst⟩

theorem inv_stateAfter (k : Knapsack) (cap uf : Nat) :
    ∀ i, i < 2 ^ k.total_items → SolveInv k cap i (k.stateAfter cap uf i) := by
  intro i
  induction i with
  | zero =>
    intro _
    rw [stateAfter_zero]
    refine ⟨rfl, ?_, ?_, ?_, Or.inl ⟨rfl, rfl⟩⟩
    · show (0 : Nat) = k.subsetWeight (gray 0)
      rw [gray_zero, Knapsack.subsetWeight, subsetSum_zero]
    · show (0 : Nat) = k.subsetValue (gray 0)
      rw [gray_zero, Knapsack.subsetValue, subsetSum_zero]
    · intro j hj1 hj2 _
      omega
  | succ i ih =>
    intro hi
    rw [stateAfter_succ]
    exact (ih (by omega)).step uf hi

/-! ### Claims -/

/-- **C1.** For every instance and capacity (and any nonzero progress-update
frequency), `solve` returns a pair `(best_subset, max_value)` in which
`max_value` equals the maximum total value over all subsets of the items whose
total weight does not exceed the capacity (the empty subset, of value 0,
included as a candidate), and the returned subset is feasible and attains that
value. -/
theorem solve_optimal (k : Knapsack) (cap u : Nat) (hu : u ≠ 0) :
    ∃ bs mv, k.solve cap u = some (bs, mv) ∧
      bs.data < 2 ^ k.total_items ∧
      k.subsetWeight bs.data ≤ cap ∧
      k.subsetValue bs.data = mv ∧
      ∀ s, s < 2 ^ k.total_items → k.subsetWeight s ≤ cap → k.subsetValue s ≤ mv := by
  rw [solve_eq_stateAfter k cap u hu]
  have hn1 : 1 ≤ 2 ^ k.total_items := Nat.one_le_two_pow
  set uf := 2 ^ k.total_items / u with hufdef
  set st := k.stateAfter cap uf (2 ^ k.total_items - 1) with hstdef
  have hI : SolveInv k cap (2 ^ k.total_items - 1) st :=
    inv_stateAfter k cap uf (2 ^ k.total_items - 1) (by omega)
  have hbs : st.best_subset.data < 2 ^ k.total_items ∧
      k.subsetWeight st.best_subset.data ≤ cap ∧
      k.subsetValue st.best_subset.data = st.max_value := by
    rcases hI.hbest with ⟨h0, hb0⟩ | ⟨hpos, j, hj1, hj2, hbsj, hf, hv, _⟩
    · refine ⟨?_, ?_, ?_⟩
      · rw [hb0]; exact Nat.two_pow_pos _
      · rw [hb0, Knapsack.subsetWeight, subsetSum_zero]; exact Nat.zero_le _
      · rw [hb0, h0, Knapsack.subsetValue, subsetSum_zero]
    · refine ⟨?_, ?_, ?_⟩
      · rw [hbsj]; exact gray_lt (by omega)
      · rw [hbsj]; exact hf
      · rw [hbsj, hv]
  refine ⟨st.best_subset, st.max_value, rfl, hbs.1, hbs.2.1, hbs.2.2, ?_⟩
  intro s hs hfeas
  by_cases hs0 : s = 0
  · subst hs0
    rw [Knapsack.subsetValue, subsetSum_zero]
    exact Nat.zero_le _
  · obtain ⟨j, hj, hgj⟩ := gray_surj hs
    have hj0 : j ≠ 0 := by
      intro h
      subst h
      rw [gray_zero] at hgj
      exact hs0 hgj.symm
    rw [← hgj]
    exact hI.hub j (by omega) (by omega) (by rw [hgj]; exact hfeas)

/-- Witness for C1 at the spec's concrete scenario: items
`[(w=2,v=3), (w=3,v=4), (w=4,v=5)]`, capacity 5 (optimal value 7). -/
theorem solve_optimal_witness :
    (1 : Nat) ≠ 0 ∧
    (∃ bs mv, (Knapsack.mk [2, 3, 4] [3, 4, 5] 3).solve 5 1 = some (bs, mv) ∧
      bs.data < 2 ^ (Knapsack.mk [2, 3, 4] [3, 4, 5] 3).total_items ∧
      (Knapsack.mk [2, 3, 4] [3, 4, 5] 3).subsetWeight bs.data ≤ 5 ∧
      (Knapsack.mk [2, 3, 4] [3, 4, 5] 3).subsetValue bs.data = mv ∧
      ∀ s, s < 2 ^ (Knapsack.mk [2, 3, 4] [3, 4, 5] 3).total_items →
        (Knapsack.mk [2, 3, 4] [3, 4, 5] 3).subsetWeight s ≤ 5 →
        (Knapsack.mk [2, 3, 4] [3, 4, 5] 3).subsetValue s ≤ mv) :=
  ⟨by decide, solve_optimal (Knapsack.mk [2, 3, 4] [3, 4, 5] 3) 5 1 (by decide)⟩

/-- **C2.** At every step of the enumeration (the initial state included), the
running totals `current_weight` and `current_value` equal exactly the sums of
the weights (resp. values) of the items whose bit is set in the current
subset `bit_str` — for all steps, feasible or not. -/
theorem solve_running_totals_exact (k : Knapsack) (cap uf i : Nat)
    (hi : i < 2 ^ k.total_items) :
    (k.stateAfter cap uf i).current_weight =
      k.subsetWeight ((k.stateAfter cap uf i).bit_str).data ∧
    (k.stateAfter cap uf i).current_value =
      k.subsetValue ((k.stateAfter cap uf i).bit_str).data := by
  have hI := inv_stateAfter k cap uf i hi
  rw [hI.hbit]
  exact ⟨hI.hcw, hI.hcv⟩

/-- Witness for C2 at the spec's concrete instance after 5 toggles. -/
theorem solve_running_totals_exact_witness :
    (5 : Nat) < 2 ^ (Knapsack.mk [2, 3, 4] [3, 4, 5] 3).total_items ∧
    (((Knapsack.mk [2, 3, 4] [3, 4, 5] 3).stateAfter 5 8 5).current_weight =
      (Knapsack.mk [2, 3, 4] [3, 4, 5] 3).subsetWeight
        (((Knapsack.mk [2, 3, 4] [3, 4, 5] 3).stateAfter 5 8 5).bit_str).data ∧
     ((Knapsack.mk [2, 3, 4] [3, 4, 5] 3).stateAfter 5 8 5).current_value =
      (Knapsack.mk [2, 3, 4] [3, 4, 5] 3).subsetValue
        (((Knapsack.mk [2, 3, 4] [3, 4, 5] 3).stateAfter 5 8 5).bit_str).data) :=
  ⟨by decide, solve_running_totals_exact (Knapsack.mk [2, 3, 4] [3, 4, 5] 3) 5 8 5 (by decide)⟩

/-- **C3.** Over one full run of `solve`'s loop, the sequence of subsets taken
by `bit_str` after each toggle contains no repeats, and contains exactly the
`2^n − 1` non-empty subsets on the `n` items: the empty subset 0 is never
visited. -/
theorem visitedSubsets_exhaustive (k : Knapsack) (cap uf : Nat) :
    (k.visitedSubsets cap uf).Nodup ∧
    ∀ s, s ∈ k.visitedSubsets cap uf ↔ (s ≠ 0 ∧ s < 2 ^ k.total_items) := by
  have hn1 : 1 ≤ 2 ^ k.total_items := Nat.one_le_two_pow
  have hmap : k.visitedSubsets cap uf =
      (List.range' 1 (2 ^ k.total_items - 1)).map gray := by
    unfold Knapsack.visitedSubsets
    apply List.map_congr_left
    intro i hi
    rw [List.mem_range'_1] at hi
    exact (inv_stateAfter k cap uf i (by omega)).hbit
  constructor
  · rw [hmap]
    apply List.Nodup.map_on
    · intro a ha b hb hab
      rw [List.mem_range'_1] at ha hb
      exact gray_inj (n := k.total_items) (by omega) (by omega) hab
    · exact List.nodup_range' _ _
  · intro s
    rw [hmap]
    constructor
    · intro hs
      obtain ⟨i, hi, rfl⟩ := List.mem_map.mp hs
      rw [List.mem_range'_1] at hi
      refine ⟨?_, gray_lt (by omega)⟩
      intro h
      have := gray_eq_zero_iff.mp h
      omega
    · rintro ⟨hs0, hslt⟩
      obtain ⟨i, hilt, hgi⟩ := gray_surj hslt
      have hi0 : i ≠ 0 := by
        intro h
        subst h
        rw [gray_zero] at hgi
        exact hs0 hgi.symm
      refine List.mem_map.mpr ⟨i, ?_, hgi⟩
      rw [List.mem_range'_1]
      omega

/-- **C4.** Every pair of consecutively visited subsets — the transition from
the initial all-zero subset included — differs in exactly one bit position,
namely at the index of the least-significant set bit of the loop counter. -/
theorem visited_single_bit_transition (k : Knapsack) (cap uf i : Nat)
    (h1 : 1 ≤ i) (h2 : i < 2 ^ k.total_items) :
    ∀ j, (((k.stateAfter cap uf i).bit_str).data.testBit j ≠
          ((k.stateAfter cap uf (i - 1)).bit_str).data.testBit j) ↔
         j = (BitString.new i).least_significant_bit := by
  intro j
  rw [(inv_stateAfter k cap uf i h2).hbit,
    (inv_stateAfter k cap uf (i - 1) (by omega)).hbit,
    least_significant_bit_new (by omega)]
  obtain ⟨i', rfl⟩ : ∃ i', i = i' + 1 := ⟨i - 1, by omega⟩
  simp only [Nat.add_sub_cancel]
  rw [gray_succ i', Nat.one_shiftLeft, Nat.testBit_xor, Nat.testBit_two_pow]
  constructor
  · intro hne
    by_cases hj : ctz (i' + 1) = j
    · omega
    · exfalso
      apply hne
      simp [hj]
  · intro hj
    subst hj
    simp

/-- Witness for C4 at the spec's concrete instance, step 6 (toggling bit 1). -/
theorem visited_single_bit_transition_witness :
    (1 : Nat) ≤ 6 ∧ (6 : Nat) < 2 ^ (Knapsack.mk [2, 3, 4] [3, 4, 5] 3).total_items ∧
    ∀ j, ((((Knapsack.mk [2, 3, 4] [3, 4, 5] 3).stateAfter 5 8 6).bit_str).data.testBit j ≠
          (((Knapsack.mk [2, 3, 4] [3, 4, 5] 3).stateAfter 5 8 (6 - 1)).bit_str).data.testBit j) ↔
         j = (BitString.new 6).least_significant_bit :=
  ⟨by decide, by decide,
    visited_single_bit_transition (Knapsack.mk [2, 3, 4] [3, 4, 5] 3) 5 8 6
      (by decide) (by decide)⟩

/-- **C5 (amended).** When the maximum value is positive, the returned
`best_subset` is the first subset in Gray-code visitation order that is
feasible and attains the final `max_value`: no later subset of merely equal
value ever replaces it.  When the maximum value is 0 — which can happen even
with several feasible max-attaining subsets, all of value 0 — the returned
subset is the initial, never-visited all-zero subset. -/
theorem solve_tie_break_first (k : Knapsack) (cap u : Nat) (hu : u ≠ 0) :
    ∃ bs mv, k.solve cap u = some (bs, mv) ∧
      ((mv = 0 ∧ bs.data = 0) ∨
       (0 < mv ∧ ∃ j, 1 ≤ j ∧ j < 2 ^ k.total_items ∧
         bs.data = ((k.stateAfter cap (2 ^ k.total_items / u) j).bit_str).data ∧
         k.subsetWeight ((k.stateAfter cap (2 ^ k.total_items / u) j).bit_str).data ≤ cap ∧
         k.subsetValue ((k.stateAfter cap (2 ^ k.total_items / u) j).bit_str).data = mv ∧
         ∀ j', 1 ≤ j' → j' < j →
           k.subsetWeight ((k.stateAfter cap (2 ^ k.total_items / u) j').bit_str).data ≤ cap →
           k.subsetValue ((k.stateAfter cap (2 ^ k.total_items / u) j').bit_str).data ≠ mv)) := by
  rw [solve_eq_stateAfter k cap u hu]
  have hn1 : 1 ≤ 2 ^ k.total_items := Nat.one_le_two_pow
  set uf := 2 ^ k.total_items / u with hufdef
  have hI : SolveInv k cap (2 ^ k.total_items - 1) (k.stateAfter cap uf (2 ^ k.total_items - 1)) :=
    inv_stateAfter k cap uf (2 ^ k.total_items - 1) (by omega)
  refine ⟨_, _, rfl, ?_⟩
  rcases hI.hbest with ⟨h0, hb0⟩ | ⟨hpos, j, hj1, hj2, hbs, hf, hv, hfirst⟩
  · exact Or.inl ⟨h0, hb0⟩
  · refine Or.inr ⟨hpos, j, hj1, by omega, ?_, ?_, ?_, ?_⟩
    · rw [(inv_stateAfter k cap uf j (by omega)).hbit]
      exact hbs
    · rw [(inv_stateAfter k cap uf j (by omega)).hbit]
      exact hf
    · rw [(inv_stateAfter k cap uf j (by omega)).hbit]
      exact hv
    · intro j' hj1' hj2' hf' hv'
      rw [(inv_stateAfter k cap uf j' (by omega)).hbit] at hf' hv'
      have := hfirst j' hj1' hj2' hf'
      omega

/-- **C5 counterexample.** On the one-item instance with weight 1, value 0,
capacity 1, both feasible subsets — the empty subset and `{item 0}` — attain
the maximum value 0.  The first (and only) max-attaining subset in Gray-code
visitation order is `{item 0}` (encoding 1, visited at step 1), yet `solve`
returns the never-visited all-zero subset: the claim as stated fails when the
maximum value is 0. -/
theorem solve_tie_break_counterexample :
    (Knapsack.mk [1] [0] 1).solve 1 1 = some (BitString.new 0, 0) ∧
    ((Knapsack.mk [1] [0] 1).stateAfter 1 2 1).bit_str.data = 1 ∧
    (Knapsack.mk [1] [0] 1).subsetWeight 1 ≤ 1 ∧
    (Knapsack.mk [1] [0] 1).subsetValue 1 = 0 ∧
    (Knapsack.mk [1] [0] 1).subsetWeight 0 ≤ 1 ∧
    (Knapsack.mk [1] [0] 1).subsetValue 0 = 0 ∧
    (BitString.new 0).data ≠ 1 := by decide

/-- Witness for C5 (amended) at the spec's concrete scenario, whose unique
optimum (value 7) is positive. -/
theorem solve_tie_break_first_witness :
    (1 : Nat) ≠ 0 ∧
    (∃ bs mv, (Knapsack.mk [2, 3, 4] [3, 4, 5] 3).solve 5 1 = some (bs, mv) ∧
      ((mv = 0 ∧ bs.data = 0) ∨
       (0 < mv ∧ ∃ j, 1 ≤ j ∧ j < 2 ^ (Knapsack.mk [2, 3, 4] [3, 4, 5] 3).total_items ∧
         bs.data = (((Knapsack.mk [2, 3, 4] [3, 4, 5] 3).stateAfter 5
           (2 ^ (Knapsack.mk [2, 3, 4] [3, 4, 5] 3).total_items / 1) j).bit_str).data ∧
         (Knapsack.mk [2, 3, 4] [3, 4, 5] 3).subsetWeight
           (((Knapsack.mk [2, 3, 4] [3, 4, 5] 3).stateAfter 5
             (2 ^ (Knapsack.mk [2, 3, 4] [3, 4, 5] 3).total_items / 1) j).bit_str).data ≤ 5 ∧
         (Knapsack.mk [2, 3, 4] [3, 4, 5] 3).subsetValue
           (((Knapsack.mk [2, 3, 4] [3, 4, 5] 3).stateAfter 5
             (2 ^ (Knapsack.mk [2, 3, 4] [3, 4, 5] 3).total_items / 1) j).bit_str).data = mv ∧
         ∀ j', 1 ≤ j' → j' < j →
           (Knapsack.mk [2, 3, 4] [3, 4, 5] 3).subsetWeight
             (((Knapsack.mk [2, 3, 4] [3, 4, 5] 3).stateAfter 5
               (2 ^ (Knapsack.mk [2, 3, 4] [3, 4, 5] 3).total_items / 1) j').bit_str).data ≤ 5 →
           (Knapsack.mk [2, 3, 4] [3, 4, 5] 3).subsetValue
             (((Knapsack.mk [2, 3, 4] [3, 4, 5] 3).stateAfter 5
               (2 ^ (Knapsack.mk [2, 3, 4] [3, 4, 5] 3).total_items / 1) j').bit_str).data ≠ mv))) :=
  ⟨by decide, solve_tie_break_first (Knapsack.mk [2, 3, 4] [3, 4, 5] 3) 5 1 (by decide)⟩

/-- **C6.** When every non-empty subset's total weight exceeds the capacity,
`solve` returns the all-zero subset and value 0. -/
theorem solve_all_infeasible (k : Knapsack) (cap u : Nat) (hu : u ≠ 0)
    (hinf : ∀ s, s < 2 ^ k.total_items → 0 < s → cap < k.subsetWeight s) :
    k.solve cap u = some (BitString.new 0, 0) := by
  rw [solve_eq_stateAfter k cap u hu]
  have hn1 : 1 ≤ 2 ^ k.total_items := Nat.one_le_two_pow
  set uf := 2 ^ k.total_items / u with hufdef
  set st := k.stateAfter cap uf (2 ^ k.total_items - 1) with hstdef
  have hI : SolveInv k cap (2 ^ k.total_items - 1) st :=
    inv_stateAfter k cap uf (2 ^ k.total_items - 1) (by omega)
  rcases hI.hbest with ⟨h0, hb0⟩ | ⟨hpos, j, hj1, hj2, hbs, hf, hv, _⟩
  · rw [show st.best_subset = BitString.new st.best_subset.data from rfl, hb0, h0]
  · exfalso
    have hjlt : j < 2 ^ k.total_items := by omega
    have hg0 : gray j ≠ 0 := by
      intro h
      have := gray_eq_zero_iff.mp h
      omega
    have := hinf (gray j) (gray_lt hjlt) (Nat.pos_of_ne_zero hg0)
    omega

/-- Witness for C6: a single item of weight 10 against capacity 3. -/
theorem solve_all_infeasible_witness :
    (1 : Nat) ≠ 0 ∧
    (∀ s, s < 2 ^ (Knapsack.mk [10] [5] 1).total_items → 0 < s →
      3 < (Knapsack.mk [10] [5] 1).subsetWeight s) ∧
    (Knapsack.mk [10] [5] 1).solve 3 1 = some (BitString.new 0, 0) :=
  ⟨by decide, by decide, solve_all_infeasible (Knapsack.mk [10] [5] 1) 3 1
    (by decide) (by decide)⟩

/-- **C7.** With zero items the loop body never executes: `solve` returns the
all-zero subset and value 0 (for any weight/value vectors and capacity). -/
theorem solve_zero_items (w v : List Nat) (cap u : Nat) (hu : u ≠ 0) :
    (Knapsack.mk w v 0).solve cap u = some (BitString.new 0, 0) := by
  unfold Knapsack.solve
  rw [if_neg hu]
  rfl

/-- Witness for C7. -/
theorem solve_zero_items_witness :
    (4 : Nat) ≠ 0 ∧ (Knapsack.mk [] [] 0).solve 9 4 = some (BitString.new 0, 0) :=
  ⟨by decide, solve_zero_items [] [] 9 4 (by decide)⟩

/-- **C8.** The reported average over the collected trial times is the
arithmetic mean `(Σ t_i)/T` and is independent of the order in which the
trials completed and appended their times (the shared results list is some
permutation of the trial times); `f64` arithmetic is idealized as exact
rational arithmetic, as licensed by the claim's floating-point tolerance. -/
theorem reportedAverage_perm_invariant (ts l : List ℚ) (hperm : l.Perm ts) :
    reportedAverage l ts.length = ts.sum / ts.length := by
  unfold reportedAverage
  rw [hperm.sum_eq]

/-- Witness for C8: times `[1, 2]` collected in reversed completion order. -/
theorem reportedAverage_perm_invariant_witness :
    ([2, 1] : List ℚ).Perm [1, 2] ∧
    reportedAverage [2, 1] ([1, 2] : List ℚ).length =
      ([1, 2] : List ℚ).sum / (([1, 2] : List ℚ).length : ℚ) :=
  ⟨by decide, reportedAverage_perm_invariant [1, 2] [2, 1] (by decide)⟩

/-- **C9 counterexample.** Calling `least_significant_bit` on the all-zero bit
string does not fail fast: Rust's `u64::trailing_zeros` is total and returns
the bit width 64 on zero, so the call returns a value instead of aborting. -/
theorem least_significant_bit_zero_counterexample :
    (BitString.new 0).least_significant_bit = 64 := by decide

/-- **C9 (amended).** On the all-zero bit string `least_significant_bit`
returns the bit width 64 (`u64::trailing_zeros(0)`) rather than failing fast;
within `solve` that case never occurs: the function is only invoked on
`BitString::new(i)` for loop counters `i ∈ [1, 2^n)`, which are nonzero, and
the returned index is then always below the item count `n`. -/
theorem least_significant_bit_domain (n i : Nat)
    (hi : i ∈ List.range' 1 (2 ^ n - 1)) :
    (BitString.new 0).least_significant_bit = 64 ∧
    (BitString.new i).data ≠ 0 ∧
    (BitString.new i).least_significant_bit < n := by
  rw [List.mem_range'_1] at hi
  have hn1 : 1 ≤ 2 ^ n := Nat.one_le_two_pow
  have hi0 : i ≠ 0 := by omega
  refine ⟨rfl, hi0, ?_⟩
  rw [least_significant_bit_new hi0]
  exact ctz_lt_of_lt_two_pow hi0 (by omega)

/-- Witness for C9 (amended) at `n = 3`, loop counter `i = 4`. -/
theorem least_significant_bit_domain_witness :
    4 ∈ List.range' 1 (2 ^ 3 - 1) ∧
    ((BitString.new 0).least_significant_bit = 64 ∧
     (BitString.new 4).data ≠ 0 ∧
     (BitString.new 4).least_significant_bit < 3) :=
  ⟨by decide, least_significant_bit_domain 3 4 (by decide)⟩

/-- **C10.** With `update_freq = 0`, `solve` evaluates `n / update_freq`, an
integer division by zero, before enumerating any subset — in Rust a panic,
modelled here by the `none` result: the solver is not total over its declared
parameter types. -/
theorem solve_update_freq_zero (k : Knapsack) (cap : Nat) :
    k.solve cap 0 = none := by
  unfold Knapsack.solve
  rw [if_pos rfl]
